import Mathlib

/-!
A shallow embedding of the answer-key search program (src/src/main.rs).

The program infers the unknown answer key of a multiple-choice quiz from a
list of graded attempts.  Machine integers are modelled as `Int`/`Nat` with
explicit wrap-around (`% 2^64`) where the Rust code performs an `as usize`
cast; code paths that panic in Rust are modelled as `Option` results
returning `none`.  Rust's stable `Vec::sort` followed by `Vec::dedup` is
modelled by a stable insertion sort followed by `List.dedup`: both produce
the unique sorted duplicate-free list of the input's elements, and on sorted
lists removing consecutive duplicates and removing all duplicates coincide.
The itertools iterator adaptors used by `generate_valid_set`
(`combinations_with_replacement`, `combinations`, `permutations`) are
modelled by recursive list functions with the documented semantics.
-/

/-- The `Answer` enum: the four choices plus the sentinel `X`. -/
inductive Answer
  | A
  | B
  | C
  | D
  | X
deriving DecidableEq

/-- The position of each `Answer` constructor in the derived `Ord` order
(`A < B < C < D < X`). -/
def Answer.toNat : Answer → Nat
  | .A => 0
  | .B => 1
  | .C => 2
  | .D => 3
  | .X => 4

/-- The derived non-strict order on `Answer` (`A ≤ B ≤ C ≤ D ≤ X`). -/
def ansLe (a b : Answer) : Prop := a.toNat ≤ b.toNat

/-- The derived strict order on `Answer` (`A < B < C < D < X`). -/
def ansLt (a b : Answer) : Prop := a.toNat < b.toNat

instance : DecidableRel ansLe := fun a b => Nat.decLe a.toNat b.toNat

instance : DecidableRel ansLt := fun a b => Nat.decLt a.toNat b.toNat

instance : IsTotal Answer ansLe := ⟨fun a b => Nat.le_total a.toNat b.toNat⟩

instance : IsTrans Answer ansLe := ⟨fun _ _ _ h₁ h₂ => Nat.le_trans h₁ h₂⟩

/-- `impl From<char> for Answer`: recognized symbols map to their variant,
anything else panics ("Invalid letter"), modelled as `none`. -/
def Answer.fromChar (c : Char) : Option Answer :=
  if c = 'A' then some .A
  else if c = 'B' then some .B
  else if c = 'C' then some .C
  else if c = 'D' then some .D
  else if c = 'X' then some .X
  else none

/-- `struct AnswerKey { answers: Vec<Answer> }`. -/
structure AnswerKey where
  answers : List Answer
deriving DecidableEq

/-- `struct AnswerKeySet { keys: Vec<AnswerKey> }`. -/
structure AnswerKeySet where
  keys : List AnswerKey
deriving DecidableEq

/-- `struct QuizAttempt { answers: Vec<Answer>, score: i32 }`. -/
structure QuizAttempt where
  answers : List Answer
  score : Int
deriving DecidableEq

/-- The derived lexicographic `Ord` on `Vec<Answer>`, as a Boolean
less-or-equal test. -/
def listLexLeB : List Answer → List Answer → Bool
  | [], _ => true
  | _ :: _, [] => false
  | a :: as, b :: bs =>
    if a.toNat < b.toNat then true
    else if a = b then listLexLeB as bs
    else false

/-- Propositional form of `listLexLeB`, for use with `insertionSort`. -/
def listLexLe (l₁ l₂ : List Answer) : Prop := listLexLeB l₁ l₂ = true

instance : DecidableRel listLexLe := fun l₁ l₂ => by
  unfold listLexLe; infer_instance

/-- The derived `Ord` on `AnswerKey` (lexicographic on `answers`). -/
def keyLe (k₁ k₂ : AnswerKey) : Prop := listLexLe k₁.answers k₂.answers

instance : DecidableRel keyLe := fun k₁ k₂ => by
  unfold keyLe; infer_instance

/-- The hand-written `Ord` on `QuizAttempt`: compares scores only. -/
def scoreLe (a b : QuizAttempt) : Prop := a.score ≤ b.score

instance : DecidableRel scoreLe := fun a b => by
  unfold scoreLe; infer_instance

/-- Rust's stable `sort()` followed by `dedup()`: the sorted list of the
input's elements with duplicates removed. -/
def sortDedup (r : α → α → Prop) [DecidableRel r] [DecidableEq α]
    (l : List α) : List α :=
  (l.insertionSort r).dedup

/-- The array `[Answer::A, Answer::B, Answer::C, Answer::D]` that the
replacement values are drawn from. -/
def letters : List Answer := [.A, .B, .C, .D]

/-- Helper for `cwr`: the selections from `x :: xs` of each length, given
the selections from `xs` of each length. -/
def cwrGo (x : α) (rest : Nat → List (List α)) : Nat → List (List α)
  | 0 => [[]]
  | k + 1 => ((cwrGo x rest k).map (fun c => x :: c)) ++ rest (k + 1)

/-- Helper for `cwr`, structurally recursive on the source list. -/
def cwrF : List α → Nat → List (List α)
  | [] => fun k =>
    match k with
    | 0 => [[]]
    | _ + 1 => []
  | x :: xs => cwrGo x (cwrF xs)

/-- itertools `combinations_with_replacement(k)`: all non-decreasing
(by input position) length-`k` selections, in lexicographic order. -/
def cwr (k : Nat) (s : List α) : List (List α) := cwrF s k

theorem cwr_zero (s : List α) : cwr 0 s = [[]] := by cases s <;> rfl

theorem cwr_succ_nil (k : Nat) : cwr (k + 1) ([] : List α) = [] := rfl

theorem cwr_succ_cons (k : Nat) (x : α) (xs : List α) :
    cwr (k + 1) (x :: xs) =
      ((cwr k (x :: xs)).map (fun c => x :: c)) ++ cwr (k + 1) xs := rfl

/-- Helper for `combinations`, structurally recursive on the source list. -/
def combF : List α → Nat → List (List α)
  | [] => fun k =>
    match k with
    | 0 => [[]]
    | _ + 1 => []
  | x :: xs => fun k =>
    match k with
    | 0 => [[]]
    | k + 1 => ((combF xs k).map (fun c => x :: c)) ++ combF xs (k + 1)

/-- itertools `combinations(k)`: all strictly increasing (by input position)
length-`k` selections, in lexicographic order. -/
def combinations (k : Nat) (s : List α) : List (List α) := combF s k

theorem combinations_zero (s : List α) : combinations 0 s = [[]] := by
  cases s <;> rfl

theorem combinations_succ_nil (k : Nat) :
    combinations (k + 1) ([] : List α) = [] := rfl

theorem combinations_succ_cons (k : Nat) (x : α) (xs : List α) :
    combinations (k + 1) (x :: xs) =
      ((combinations k xs).map (fun c => x :: c)) ++ combinations (k + 1) xs := rfl

/-- All ways of inserting one element into a list. -/
def insertEverywhere (x : α) : List α → List (List α)
  | [] => [[x]]
  | y :: ys => (x :: y :: ys) :: (insertEverywhere x ys).map (fun l => y :: l)

/-- itertools `permutations(k)` on a length-`k` collection: every
rearrangement of the collection.  The enumeration order differs from
itertools', but the next step sorts and deduplicates, so only the set of
rearrangements matters. -/
def perms : List α → List (List α)
  | [] => [[]]
  | x :: xs => (perms xs).flatMap (insertEverywhere x)

/-- The `answers_to_try` vector of `generate_valid_set`: combinations with
replacement of length `k` over `[A, B, C, D]`, flat-mapped through their
length-`k` permutations, then sorted and deduplicated. -/
def answersToTry (k : Nat) : List (List Answer) :=
  sortDedup listLexLe ((cwr k letters).flatMap (fun comb => perms comb))

/-- The inner loop body of `generate_valid_set`: clone the seed's answers
and overwrite the chosen positions, in order, with the replacement values
(`this_key[add] = a`). -/
def overwrite (base : List Answer) (pm : List Nat) (ans : List Answer) :
    List Answer :=
  (pm.zip ans).foldl (fun acc p => acc.set p.1 p.2) base

/-- The candidate list of `generate_valid_set` before the sentinel filter and
the sort/dedup: for each combination of `k` positions out of
`0..answers.len()`, one candidate per replacement sequence in
`answers_to_try`. -/
def QuizAttempt.rawCandidates (a : QuizAttempt) (k : Nat) : List AnswerKey :=
  (combinations k (List.range a.answers.length)).flatMap
    (fun pm => (answersToTry k).map (fun ans => AnswerKey.mk (overwrite a.answers pm ans)))

/-- The constant `2^64`, the modulus of `usize` arithmetic. -/
def USIZE : Int := 2 ^ 64

/-- `QuizAttempt::generate_valid_set`.  `num_mistakes` is
`self.answers.len() - self.score as usize`; the `as usize` cast wraps the
`i32` score modulo `2^64` and the `usize` subtraction panics on underflow
(modelled as `none`).  Candidates containing the sentinel `X` are filtered
out and the result is sorted and deduplicated. -/
def QuizAttempt.generate_valid_set (a : QuizAttempt) : Option AnswerKeySet :=
  if a.answers.length < (a.score % USIZE).toNat then none
  else
    some ⟨sortDedup keyLe
      ((a.rawCandidates (a.answers.length - (a.score % USIZE).toNat)).filter
        (fun key => !(decide (Answer.X ∈ key.answers))))⟩

/-- The sum `Σ (if answers[i] == key.answers[i] then 1 else 0)` computed by
`QuizAttempt::check` over the zipped sequences. -/
def QuizAttempt.matchCount (a : QuizAttempt) (key : AnswerKey) : Int :=
  ((a.answers.zip key.answers).map (fun p => if p.1 = p.2 then (1 : Int) else 0)).sum

/-- `QuizAttempt::check`: panics ("Unmatched lengths!") when the lengths
differ (modelled as `none`), otherwise compares the number of position-wise
matches with the score. -/
def QuizAttempt.check (a : QuizAttempt) (key : AnswerKey) : Option Bool :=
  if a.answers.length ≠ key.answers.length then none
  else some (decide (a.matchCount key = a.score))

/-- `AnswerKeySet::reduce`: keeps exactly the keys accepted by
`attempt.check`; any key of mismatched length makes `check` panic, so the
whole call is `none` in that case. -/
def AnswerKeySet.reduce (s : AnswerKeySet) (a : QuizAttempt) : Option AnswerKeySet :=
  if s.keys.all (fun key => (a.check key).isSome)
  then some ⟨s.keys.filter (fun key => decide (a.check key = some true))⟩
  else none

/-- The fold in `main`: `base[1..].iter().fold(highest, |s, att| s.reduce(att))`. -/
def reduceFold (s : AnswerKeySet) (l : List QuizAttempt) : Option AnswerKeySet :=
  l.foldlM AnswerKeySet.reduce s

/-- The pipeline of `main` after the attempts are loaded: stable-sort the
attempts by score, reverse (descending), seed the generator with the
highest-scoring attempt and fold `reduce` over the rest.  An empty list
panics at `base[0]` (modelled as `none`). -/
def pipeline (attempts : List QuizAttempt) : Option AnswerKeySet :=
  match (attempts.insertionSort scoreLe).reverse with
  | [] => none
  | seed :: rest => (seed.generate_valid_set).bind (fun init => reduceFold init rest)

/-- The `map(|c| Answer::from(c)).collect()` step of `from_string`: parse
each character, the first unrecognized one panicking (modelled as `none`). -/
def parseAnswers : List Char → Option (List Answer)
  | [] => some []
  | c :: cs => (Answer.fromChar c).bind (fun a => (parseAnswers cs).map (fun as => a :: as))

/-- `QuizAttempt::from_string`: panics ("Impossible score") when
`string.len() < score as usize` (the cast wrapping modulo `2^64`), then
uppercases the string and parses each character through `Answer::from`,
which panics on unrecognized symbols.  Both panics are modelled as `none`.
The Rust string is modelled as its character list; `to_uppercase` is
modelled per character by `Char.toUpper` (the inputs of interest are
ASCII). -/
def QuizAttempt.from_string (s : List Char) (score : Int) : Option QuizAttempt :=
  if s.length < (score % USIZE).toNat then none
  else (parseAnswers (s.map Char.toUpper)).map
    (fun answers => QuizAttempt.mk answers score)

/-- The naive Cartesian-power enumeration of all length-`k` sequences over
`[A, B, C, D]`, written from the specification for comparison with
`answersToTry`. -/
def cartPow : Nat → List (List Answer)
  | 0 => [[]]
  | k + 1 => (cartPow k).flatMap (fun t => letters.map (fun x => x :: t))

/-! ### Basic facts about `check`, `reduce` and the fold -/

/-- Membership in `sortDedup` is membership in the original list. -/
theorem mem_sortDedup {α : Type} {r : α → α → Prop} [DecidableRel r]
    [DecidableEq α] {x : α} {l : List α} : x ∈ sortDedup r l ↔ x ∈ l := by
  unfold sortDedup
  rw [List.mem_dedup, (List.perm_insertionSort r l).mem_iff]

/-- `check` succeeds exactly on matching lengths. -/
theorem check_isSome_iff (a : QuizAttempt) (key : AnswerKey) :
    (a.check key).isSome ↔ a.answers.length = key.answers.length := by
  unfold QuizAttempt.check
  split <;> simp_all

/-- When every key of the set matches the attempt's length, `reduce` returns
the filtered set. -/
theorem reduce_eq_some (s : AnswerKeySet) (a : QuizAttempt)
    (h : ∀ key ∈ s.keys, key.answers.length = a.answers.length) :
    s.reduce a =
      some ⟨s.keys.filter (fun key => decide (a.check key = some true))⟩ := by
  unfold AnswerKeySet.reduce
  have hall : s.keys.all (fun key => (a.check key).isSome) = true := by
    rw [List.all_eq_true]
    intro key hk
    rw [check_isSome_iff]
    exact (h key hk).symm
  rw [if_pos hall]

/-- Whenever `reduce` returns a set, that set is the filtered input set. -/
theorem reduce_keys_of_eq_some {s s' : AnswerKeySet} {a : QuizAttempt}
    (h : s.reduce a = some s') :
    s'.keys = s.keys.filter (fun key => decide (a.check key = some true)) := by
  unfold AnswerKeySet.reduce at h
  split at h
  · injection h with h
    rw [← h]
  · cases h

/-- Keys surviving the fold of `reduce` were in the starting set. -/
theorem reduceFold_subset :
    ∀ (l : List QuizAttempt) (s s' : AnswerKeySet), reduceFold s l = some s' →
      ∀ key ∈ s'.keys, key ∈ s.keys := by
  intro l
  induction l with
  | nil =>
      intro s s' h key hk
      unfold reduceFold at h
      rw [List.foldlM_nil] at h
      injection h with h
      rw [h]
      exact hk
  | cons b l ih =>
      intro s s' h key hk
      unfold reduceFold at h
      rw [List.foldlM_cons] at h
      cases hr : s.reduce b with
      | none => rw [hr] at h; cases h
      | some s₁ =>
          rw [hr] at h
          have hsub := ih s₁ s' h key hk
          rw [reduce_keys_of_eq_some hr] at hsub
          exact List.mem_of_mem_filter hsub

/-- Every key surviving the fold of `reduce` passes the check of every
attempt that was folded in. -/
theorem reduceFold_check :
    ∀ (l : List QuizAttempt) (s s' : AnswerKeySet), reduceFold s l = some s' →
      ∀ key ∈ s'.keys, ∀ b ∈ l, b.check key = some true := by
  intro l
  induction l with
  | nil =>
      intro s s' _ key _ b hb
      cases hb
  | cons b l ih =>
      intro s s' h key hk c hc
      unfold reduceFold at h
      rw [List.foldlM_cons] at h
      cases hr : s.reduce b with
      | none => rw [hr] at h; cases h
      | some s₁ =>
          rw [hr] at h
          rcases List.mem_cons.mp hc with rfl | hcl
          · have hk₁ : key ∈ s₁.keys := reduceFold_subset l s₁ s' h key hk
            rw [reduce_keys_of_eq_some hr] at hk₁
            have := (List.mem_filter.mp hk₁).2
            exact of_decide_eq_true this
          · exact ih s₁ s' h key hk c hcl

/-- Under uniform lengths the whole fold of `reduce` is one filter by the
conjunction of all the attempts' checks. -/
theorem reduceFold_eq_filter {n : Nat} :
    ∀ (l : List QuizAttempt) (s : AnswerKeySet),
    (∀ key ∈ s.keys, key.answers.length = n) →
    (∀ b ∈ l, b.answers.length = n) →
    reduceFold s l =
      some ⟨s.keys.filter
        (fun key => l.all (fun b => decide (b.check key = some true)))⟩ := by
  intro l
  induction l with
  | nil =>
      intro s _ _
      simp [reduceFold]
  | cons b l ih =>
      intro s hS hl
      have hred := reduce_eq_some s b (fun key hk =>
        (hS key hk).trans (hl b (List.mem_cons_self b l)).symm)
      unfold reduceFold
      rw [List.foldlM_cons, hred]
      show reduceFold ⟨s.keys.filter (fun key => decide (b.check key = some true))⟩ l = _
      rw [ih ⟨s.keys.filter (fun key => decide (b.check key = some true))⟩
        (fun key hk => hS key (List.mem_of_mem_filter hk))
        (fun c hc => hl c (List.mem_cons_of_mem b hc))]
      rw [List.filter_filter]
      simp only [Option.some.injEq, AnswerKeySet.mk.injEq]
      apply List.filter_congr
      intro key _
      rw [List.all_cons, Bool.and_comm]

/-! ### Claim C3: the check predicate -/

/-- C3: for an attempt and key of equal length, `check` returns true exactly
when the number of positions with equal answers equals the attempt's score;
on differing lengths it fails (panic, modelled as `none`) instead of
returning a value. -/
theorem check_true_iff_matchCount (a : QuizAttempt) (key : AnswerKey) :
    (a.answers.length = key.answers.length →
      (a.check key = some true ↔ a.matchCount key = a.score)) ∧
    (a.answers.length ≠ key.answers.length → a.check key = none) := by
  constructor
  · intro h
    unfold QuizAttempt.check
    rw [if_neg (by rw [h]; exact fun hne => hne rfl)]
    simp
  · intro h
    unfold QuizAttempt.check
    rw [if_pos h]

/-- Witness for C3 at the repository's own test inputs. -/
theorem check_true_iff_matchCount_witness :
    ((QuizAttempt.mk [Answer.A, Answer.A] 1).check (AnswerKey.mk [Answer.A, Answer.B]) = some true ↔
      (QuizAttempt.mk [Answer.A, Answer.A] 1).matchCount (AnswerKey.mk [Answer.A, Answer.B]) = 1) ∧
    (QuizAttempt.mk [Answer.A] 2).check (AnswerKey.mk [Answer.A, Answer.B]) = none :=
  ⟨(check_true_iff_matchCount (QuizAttempt.mk [Answer.A, Answer.A] 1)
      (AnswerKey.mk [Answer.A, Answer.B])).1 (by decide),
   (check_true_iff_matchCount (QuizAttempt.mk [Answer.A] 2)
      (AnswerKey.mk [Answer.A, Answer.B])).2 (by decide)⟩

/-! ### Claim C7: reduce is an exact, pure filter -/

/-- C7: for a keyset whose keys match the attempt's length, `reduce` returns
a new keyset containing exactly the keys accepted by `attempt.check`; being
a plain function of the old set it has no effect beyond producing the new
set. -/
theorem reduce_keeps_exactly_checked (s : AnswerKeySet) (a : QuizAttempt)
    (h : ∀ key ∈ s.keys, key.answers.length = a.answers.length) :
    ∃ s', s.reduce a = some s' ∧
      ∀ key, key ∈ s'.keys ↔ (key ∈ s.keys ∧ a.check key = some true) := by
  refine ⟨_, reduce_eq_some s a h, ?_⟩
  intro key
  rw [List.mem_filter]
  constructor
  · rintro ⟨h1, h2⟩
    exact ⟨h1, of_decide_eq_true h2⟩
  · rintro ⟨h1, h2⟩
    exact ⟨h1, decide_eq_true h2⟩

/-- Witness for C7 on a concrete two-key set. -/
theorem reduce_keeps_exactly_checked_witness :
    ∃ s', (AnswerKeySet.mk [AnswerKey.mk [Answer.A], AnswerKey.mk [Answer.B]]).reduce
        (QuizAttempt.mk [Answer.A] 1) = some s' ∧
      ∀ key, key ∈ s'.keys ↔
        (key ∈ (AnswerKeySet.mk [AnswerKey.mk [Answer.A], AnswerKey.mk [Answer.B]]).keys ∧
          (QuizAttempt.mk [Answer.A] 1).check key = some true) :=
  reduce_keeps_exactly_checked
    (AnswerKeySet.mk [AnswerKey.mk [Answer.A], AnswerKey.mk [Answer.B]])
    (QuizAttempt.mk [Answer.A] 1) (by decide)

/-! ### Claim C4: shrinkage and order independence -/

/-- C4: a `reduce` call never grows the set, and folding `reduce` over the
non-seed attempts gives the same result for any order of those attempts
(all lengths being uniform). -/
theorem reduce_shrinks_and_fold_is_order_independent
    (s : AnswerKeySet) (a : QuizAttempt) (l₁ l₂ : List QuizAttempt) (n : Nat)
    (hS : ∀ key ∈ s.keys, key.answers.length = n)
    (hl : ∀ b ∈ l₁, b.answers.length = n)
    (hp : l₁.Perm l₂) :
    (∀ s', s.reduce a = some s' → s'.keys.length ≤ s.keys.length) ∧
    reduceFold s l₁ = reduceFold s l₂ := by
  constructor
  · intro s' h
    rw [reduce_keys_of_eq_some h]
    exact List.length_filter_le _ _
  · rw [reduceFold_eq_filter l₁ s hS hl,
      reduceFold_eq_filter l₂ s hS (fun b hb => hl b (hp.mem_iff.mpr hb))]
    have hall : ∀ key : AnswerKey,
        (l₁.all (fun b => decide (b.check key = some true)))
          = (l₂.all (fun b => decide (b.check key = some true))) := by
      intro key
      rw [Bool.eq_iff_iff, List.all_eq_true, List.all_eq_true]
      constructor
      · intro hh b hb
        exact hh b (hp.mem_iff.mpr hb)
      · intro hh b hb
        exact hh b (hp.mem_iff.mp hb)
    simp only [hall]

/-- Witness for C4: a concrete shrinkage instance and a two-attempt fold
applied in both orders. -/
theorem reduce_shrinks_and_fold_is_order_independent_witness :
    (AnswerKeySet.mk []).keys.length ≤ (AnswerKeySet.mk [AnswerKey.mk [Answer.A]]).keys.length ∧
    reduceFold (AnswerKeySet.mk [AnswerKey.mk [Answer.A]])
        [QuizAttempt.mk [Answer.B] 0, QuizAttempt.mk [Answer.A] 1]
      = reduceFold (AnswerKeySet.mk [AnswerKey.mk [Answer.A]])
        [QuizAttempt.mk [Answer.A] 1, QuizAttempt.mk [Answer.B] 0] := by
  have h := reduce_shrinks_and_fold_is_order_independent
    (AnswerKeySet.mk [AnswerKey.mk [Answer.A]]) (QuizAttempt.mk [Answer.B] 1)
    [QuizAttempt.mk [Answer.B] 0, QuizAttempt.mk [Answer.A] 1]
    [QuizAttempt.mk [Answer.A] 1, QuizAttempt.mk [Answer.B] 0] 1
    (by decide) (by decide) (List.Perm.swap _ _ _)
  exact ⟨h.1 (AnswerKeySet.mk []) (by decide), h.2⟩

/-! ### Claim C1: what the final key set satisfies -/

/-- C1 (amended): every key remaining in the pipeline's final set passes
`check` for every non-seed attempt, i.e. every attempt folded through
`reduce`.  (The seed attempt's own check is *not* guaranteed — see the
counterexample.) -/
theorem final_keys_pass_all_nonseed_checks
    (attempts rest : List QuizAttempt) (seed : QuizAttempt) (S : AnswerKeySet)
    (hsort : (attempts.insertionSort scoreLe).reverse = seed :: rest)
    (hrun : pipeline attempts = some S) :
    ∀ key ∈ S.keys, ∀ b ∈ rest, b.check key = some true := by
  unfold pipeline at hrun
  rw [hsort] at hrun
  have hrun2 : (seed.generate_valid_set).bind (fun init => reduceFold init rest) = some S := hrun
  cases hg : seed.generate_valid_set with
  | none => rw [hg] at hrun2; cases hrun2
  | some init =>
      rw [hg] at hrun2
      simp only [Option.some_bind] at hrun2
      exact reduceFold_check rest init S hrun2

/-- C1 counterexample: with attempts "AB" score 1 (the seed) and "BA"
score 0, the final set still contains the key "AB", which fails the seed's
own check (2 matches against a score of 1). -/
theorem final_key_can_fail_seed_check :
    pipeline [QuizAttempt.mk [Answer.A, Answer.B] 1, QuizAttempt.mk [Answer.B, Answer.A] 0] =
      some (AnswerKeySet.mk [AnswerKey.mk [Answer.A, Answer.B],
        AnswerKey.mk [Answer.A, Answer.C], AnswerKey.mk [Answer.A, Answer.D],
        AnswerKey.mk [Answer.C, Answer.B], AnswerKey.mk [Answer.D, Answer.B]]) ∧
    (QuizAttempt.mk [Answer.A, Answer.B] 1).check (AnswerKey.mk [Answer.A, Answer.B]) =
      some false := by
  constructor
  · decide
  · decide

/-- Witness for C1 at the two-attempt counterexample instance, specialized
to the surviving key "AC" and the non-seed attempt "BA"/0. -/
theorem final_keys_pass_all_nonseed_checks_witness :
    (QuizAttempt.mk [Answer.B, Answer.A] 0).check (AnswerKey.mk [Answer.A, Answer.C]) =
      some true :=
  final_keys_pass_all_nonseed_checks
    [QuizAttempt.mk [Answer.A, Answer.B] 1, QuizAttempt.mk [Answer.B, Answer.A] 0]
    [QuizAttempt.mk [Answer.B, Answer.A] 0]
    (QuizAttempt.mk [Answer.A, Answer.B] 1)
    (AnswerKeySet.mk [AnswerKey.mk [Answer.A, Answer.B],
      AnswerKey.mk [Answer.A, Answer.C], AnswerKey.mk [Answer.A, Answer.D],
      AnswerKey.mk [Answer.C, Answer.B], AnswerKey.mk [Answer.D, Answer.B]])
    (by decide) (by decide)
    (AnswerKey.mk [Answer.A, Answer.C]) (by decide)
    (QuizAttempt.mk [Answer.B, Answer.A] 0) (by decide)

/-! ### Claim C8: the sentinel never appears in outputs -/

/-- C8: no key produced by `generate_valid_set` contains the sentinel `X`,
`reduce` preserves this, and hence no sentinel appears in any key of the
pipeline's final set. -/
theorem no_sentinel_in_outputs (a b : QuizAttempt) (s s' S : AnswerKeySet)
    (l : List QuizAttempt) :
    (a.generate_valid_set = some s → ∀ key ∈ s.keys, Answer.X ∉ key.answers) ∧
    (s.reduce b = some s' → (∀ key ∈ s.keys, Answer.X ∉ key.answers) →
      ∀ key ∈ s'.keys, Answer.X ∉ key.answers) ∧
    (pipeline l = some S → ∀ key ∈ S.keys, Answer.X ∉ key.answers) := by
  have hgen : ∀ (c : QuizAttempt) (t : AnswerKeySet), c.generate_valid_set = some t →
      ∀ key ∈ t.keys, Answer.X ∉ key.answers := by
    intro c t h key hk
    unfold QuizAttempt.generate_valid_set at h
    split at h
    · cases h
    · injection h with h
      rw [← h] at hk
      have hk2 := mem_sortDedup.mp hk
      have := (List.mem_filter.mp hk2).2
      simpa using this
  refine ⟨hgen a s, ?_, ?_⟩
  · intro h hX key hk
    rw [reduce_keys_of_eq_some h] at hk
    exact hX key (List.mem_of_mem_filter hk)
  · intro h key hk
    unfold pipeline at h
    cases hrev : (l.insertionSort scoreLe).reverse with
    | nil => rw [hrev] at h; cases h
    | cons seed rest =>
        rw [hrev] at h
        have h2 : (seed.generate_valid_set).bind (fun init => reduceFold init rest) = some S := h
        cases hg : seed.generate_valid_set with
        | none => rw [hg] at h2; cases h2
        | some init =>
            rw [hg] at h2
            simp only [Option.some_bind] at h2
            exact hgen seed init hg key (reduceFold_subset rest init S h2 key hk)

/-- Witness for C8 on a one-attempt pipeline, specialized to its single
output key. -/
theorem no_sentinel_in_outputs_witness :
    pipeline [QuizAttempt.mk [Answer.A] 1] =
        some (AnswerKeySet.mk [AnswerKey.mk [Answer.A]]) ∧
    Answer.X ∉ (AnswerKey.mk [Answer.A]).answers := by
  have h := no_sentinel_in_outputs (QuizAttempt.mk [Answer.A] 1) (QuizAttempt.mk [Answer.A] 1)
    (AnswerKeySet.mk [AnswerKey.mk [Answer.A]]) (AnswerKeySet.mk [AnswerKey.mk [Answer.A]])
    (AnswerKeySet.mk [AnswerKey.mk [Answer.A]]) [QuizAttempt.mk [Answer.A] 1]
  exact ⟨by decide, h.2.2 (by decide) (AnswerKey.mk [Answer.A]) (by decide)⟩

/-! ### Claim C2: the concrete two-attempt scenario -/

/-- C2 counterexample: the generator's output for seed "AB" with score 1
contains the key "AB" itself (a candidate with zero mismatches), contrary
to the claimed six-key set that excludes it. -/
theorem concrete_generator_contains_seed :
    ∃ s, QuizAttempt.generate_valid_set (QuizAttempt.mk [Answer.A, Answer.B] 1) = some s ∧
      AnswerKey.mk [Answer.A, Answer.B] ∈ s.keys :=
  ⟨AnswerKeySet.mk [AnswerKey.mk [Answer.A, Answer.A], AnswerKey.mk [Answer.A, Answer.B],
    AnswerKey.mk [Answer.A, Answer.C], AnswerKey.mk [Answer.A, Answer.D],
    AnswerKey.mk [Answer.B, Answer.B], AnswerKey.mk [Answer.C, Answer.B],
    AnswerKey.mk [Answer.D, Answer.B]], by decide, by decide⟩

/-- C2 (amended): seed "AB" with score 1 generates exactly the *seven* keys
{AA, AB, AC, AD, BB, CB, DB} — including "AB" itself — and reducing that
set with the attempt "AA" of score 2 yields exactly the singleton {AA}. -/
theorem concrete_generator_and_reduction :
    QuizAttempt.generate_valid_set (QuizAttempt.mk [Answer.A, Answer.B] 1) =
      some (AnswerKeySet.mk [AnswerKey.mk [Answer.A, Answer.A], AnswerKey.mk [Answer.A, Answer.B],
        AnswerKey.mk [Answer.A, Answer.C], AnswerKey.mk [Answer.A, Answer.D],
        AnswerKey.mk [Answer.B, Answer.B], AnswerKey.mk [Answer.C, Answer.B],
        AnswerKey.mk [Answer.D, Answer.B]]) ∧
    AnswerKeySet.reduce (AnswerKeySet.mk [AnswerKey.mk [Answer.A, Answer.A],
        AnswerKey.mk [Answer.A, Answer.B], AnswerKey.mk [Answer.A, Answer.C],
        AnswerKey.mk [Answer.A, Answer.D], AnswerKey.mk [Answer.B, Answer.B],
        AnswerKey.mk [Answer.C, Answer.B], AnswerKey.mk [Answer.D, Answer.B]])
      (QuizAttempt.mk [Answer.A, Answer.A] 2) =
      some (AnswerKeySet.mk [AnswerKey.mk [Answer.A, Answer.A]]) := by
  constructor
  · decide
  · decide

/-! ### Claim C5: full-score seeds -/

/-- C5 counterexample: a seed consisting of the sentinel `X` with score
equal to its length produces the *empty* set (the lone candidate, the seed
itself, is discarded by the sentinel filter), not the seed's own sequence. -/
theorem full_score_sentinel_seed_empty :
    QuizAttempt.generate_valid_set (QuizAttempt.mk [Answer.X] 1) =
      some (AnswerKeySet.mk []) := by decide

/-- C5 (amended): for a seed without the sentinel whose score equals its
length, `generate_valid_set` returns exactly one candidate: the seed's own
answer sequence. -/
theorem full_score_seed_gives_singleton (a : QuizAttempt)
    (hX : Answer.X ∉ a.answers) (hs : a.score = (a.answers.length : Int))
    (hlen : a.answers.length < 2 ^ 64) :
    a.generate_valid_set = some (AnswerKeySet.mk [AnswerKey.mk a.answers]) := by
  have hm : (a.score % USIZE).toNat = a.answers.length := by
    rw [hs, Int.emod_eq_of_lt (Int.natCast_nonneg _)
      (by rw [show USIZE = ((2 ^ 64 : Nat) : Int) from rfl]; exact_mod_cast hlen)]
    exact Int.toNat_natCast _
  have hraw : a.rawCandidates 0 = [AnswerKey.mk a.answers] := by
    unfold QuizAttempt.rawCandidates
    rw [combinations_zero]
    rw [show answersToTry 0 = [[]] from by decide]
    rfl
  unfold QuizAttempt.generate_valid_set
  rw [hm, if_neg (Nat.lt_irrefl _), Nat.sub_self, hraw]
  have hfilter : List.filter (fun key => !(decide (Answer.X ∈ key.answers)))
      [AnswerKey.mk a.answers] = [AnswerKey.mk a.answers] := by
    rw [List.filter_cons]
    simp [hX]
  rw [hfilter]
  rfl

/-- Witness for C5 at the seed "AB" with score 2. -/
theorem full_score_seed_gives_singleton_witness :
    QuizAttempt.generate_valid_set (QuizAttempt.mk [Answer.A, Answer.B] 2) =
      some (AnswerKeySet.mk [AnswerKey.mk [Answer.A, Answer.B]]) :=
  full_score_seed_gives_singleton (QuizAttempt.mk [Answer.A, Answer.B] 2)
    (by decide) (by decide) (by decide)

/-! ### Claim C9: construction-time validation -/

theorem USIZE_eq : USIZE = 18446744073709551616 := by norm_num [USIZE]

/-- Parsing succeeds when every character is recognized. -/
theorem parseAnswers_isSome :
    ∀ l : List Char, (∀ c ∈ l, (Answer.fromChar c).isSome) →
      (parseAnswers l).isSome := by
  intro l
  induction l with
  | nil => intro _; rfl
  | cons c cs ih =>
      intro h
      obtain ⟨a, ha⟩ := Option.isSome_iff_exists.mp (h c (List.mem_cons_self c cs))
      obtain ⟨as, has⟩ := Option.isSome_iff_exists.mp
        (ih (fun d hd => h d (List.mem_cons_of_mem c hd)))
      unfold parseAnswers
      rw [ha, has]
      rfl

/-- C9: a score above the answer length or below zero makes construction
fail with the "Impossible score" panic; with 0 ≤ score ≤ length the score
check passes (construction succeeds whenever all characters parse); and a
character outside the recognized alphabet {A,B,C,D,X} makes `Answer::from`
fail with the "Invalid letter" panic.  The score bounds reflect the `i32`
type of the score field. -/
theorem attempt_construction_validation (s : List Char) (score : Int) (c : Char) :
    (0 ≤ score → score < 2 ^ 31 → (s.length : Int) < score →
      QuizAttempt.from_string s score = none) ∧
    (score < 0 → -(2 ^ 31) ≤ score → s.length < 2 ^ 63 →
      QuizAttempt.from_string s score = none) ∧
    (0 ≤ score → score ≤ (s.length : Int) →
      (∀ ch ∈ s, (Answer.fromChar ch.toUpper).isSome) →
      (QuizAttempt.from_string s score).isSome) ∧
    (c ∉ (['A', 'B', 'C', 'D', 'X'] : List Char) → Answer.fromChar c = none) := by
  refine ⟨?_, ?_, ?_, ?_⟩
  · intro h0 h31 hgt
    have h31n : score < 2147483648 := by
      have : (2 : Int) ^ 31 = 2147483648 := by norm_num
      omega
    have hmod : score % USIZE = score := by
      rw [USIZE_eq]
      exact Int.emod_eq_of_lt h0 (by omega)
    unfold QuizAttempt.from_string
    rw [hmod, if_pos (by omega)]
  · intro hneg h31 h63
    have h31n : -2147483648 ≤ score := by
      have : (2 : Int) ^ 31 = 2147483648 := by norm_num
      omega
    have h63n : s.length < 9223372036854775808 := by
      have : (2 : Nat) ^ 63 = 9223372036854775808 := by norm_num
      omega
    have hmod : score % USIZE = score + 18446744073709551616 := by
      rw [USIZE_eq]
      have h1 : (score + 18446744073709551616) % (18446744073709551616 : Int)
          = score % (18446744073709551616 : Int) := Int.add_emod_self
      rw [← h1]
      exact Int.emod_eq_of_lt (by omega) (by omega)
    unfold QuizAttempt.from_string
    rw [hmod, if_pos (by omega)]
  · intro h0 hle hval
    have hub : (score % USIZE).toNat ≤ s.length := by
      have hlt : score % USIZE < USIZE := Int.emod_lt_of_pos score (by rw [USIZE_eq]; omega)
      have hnn : 0 ≤ score % USIZE := Int.emod_nonneg score (by rw [USIZE_eq]; omega)
      rcases lt_or_le score USIZE with hc | hc
      · rw [Int.emod_eq_of_lt h0 hc]
        omega
      · have hge : USIZE ≤ (s.length : Int) := le_trans hc hle
        omega
    obtain ⟨as, has⟩ := Option.isSome_iff_exists.mp
      (parseAnswers_isSome (s.map Char.toUpper) (by
        intro d hd
        obtain ⟨ch, hch, rfl⟩ := List.mem_map.mp hd
        exact hval ch hch))
    unfold QuizAttempt.from_string
    rw [if_neg (by omega), has]
    rfl
  · intro hc
    unfold Answer.fromChar
    split_ifs with h1 h2 h3 h4 h5 <;> first | rfl | (subst_vars; simp at hc)

/-- Witness for C9 at concrete strings and scores. -/
theorem attempt_construction_validation_witness :
    QuizAttempt.from_string ['A', 'B'] 3 = none ∧
    QuizAttempt.from_string ['A', 'B'] (-1) = none ∧
    (QuizAttempt.from_string ['a', 'b'] 1).isSome ∧
    Answer.fromChar 'E' = none :=
  ⟨(attempt_construction_validation ['A', 'B'] 3 'E').1 (by norm_num) (by norm_num) (by norm_num),
   (attempt_construction_validation ['A', 'B'] (-1) 'E').2.1 (by norm_num) (by norm_num) (by norm_num),
   (attempt_construction_validation ['a', 'b'] 1 'E').2.2.1 (by norm_num) (by norm_num) (by decide),
   (attempt_construction_validation ['A', 'B'] 3 'E').2.2.2 (by decide)⟩

/-! ### Claim C10: the replacement-sequence enumeration -/

/-- Inserting `x` anywhere into `p` yields a rearrangement of `x :: p`. -/
theorem perm_of_mem_insertEverywhere {x : α} :
    ∀ {p l : List α}, l ∈ insertEverywhere x p → l.Perm (x :: p) := by
  intro p
  induction p with
  | nil =>
      intro l h
      rw [show insertEverywhere x [] = [[x]] from rfl] at h
      rw [List.mem_singleton.mp h]
  | cons y ys ih =>
      intro l h
      rw [show insertEverywhere x (y :: ys) =
        (x :: y :: ys) :: (insertEverywhere x ys).map (fun l => y :: l) from rfl] at h
      rcases List.mem_cons.mp h with rfl | h
      · exact List.Perm.refl _
      · obtain ⟨m, hm, rfl⟩ := List.mem_map.mp h
        exact ((ih hm).cons y).trans (List.Perm.swap x y ys)

/-- Inserting `x` between `l₁` and `l₂` is one of the insertions of `x`
into `l₁ ++ l₂`. -/
theorem append_cons_mem_insertEverywhere (x : α) :
    ∀ (l₁ l₂ : List α), (l₁ ++ x :: l₂) ∈ insertEverywhere x (l₁ ++ l₂) := by
  intro l₁
  induction l₁ with
  | nil =>
      intro l₂
      cases l₂ with
      | nil => exact List.mem_singleton.mpr rfl
      | cons y ys => exact List.mem_cons_self _ _
  | cons y l₁ ih =>
      intro l₂
      rw [List.cons_append, List.cons_append]
      cases hcat : l₁ ++ l₂ with
      | nil =>
          rcases List.append_eq_nil.mp hcat with ⟨rfl, rfl⟩
          simp [insertEverywhere]
      | cons z zs =>
          rw [show insertEverywhere x (y :: z :: zs) =
            (x :: y :: z :: zs) :: (insertEverywhere x (z :: zs)).map (fun l => y :: l) from rfl]
          refine List.mem_cons_of_mem _ (List.mem_map.mpr ⟨l₁ ++ x :: l₂, ?_, rfl⟩)
          rw [← hcat]
          exact ih l₂

/-- `perms` enumerates exactly the rearrangements of its input. -/
theorem mem_perms {α : Type} : ∀ {c l : List α}, l ∈ perms c ↔ l.Perm c := by
  intro c
  induction c with
  | nil =>
      intro l
      rw [show perms ([] : List α) = [[]] from rfl]
      rw [List.mem_singleton]
      exact ⟨fun h => h ▸ List.Perm.refl _, fun h => List.Perm.eq_nil h⟩
  | cons x xs ih =>
      intro l
      rw [show perms (x :: xs) = (perms xs).flatMap (insertEverywhere x) from rfl]
      rw [List.mem_flatMap]
      constructor
      · rintro ⟨p, hp, hl⟩
        exact (perm_of_mem_insertEverywhere hl).trans ((ih.mp hp).cons x)
      · intro h
        have hx : x ∈ l := h.mem_iff.mpr (List.mem_cons_self x xs)
        obtain ⟨l₁, l₂, rfl⟩ := List.append_of_mem hx
        have hmid : (l₁ ++ x :: l₂).Perm (x :: (l₁ ++ l₂)) := List.perm_middle
        have hp : (l₁ ++ l₂).Perm xs := (hmid.symm.trans h).cons_inv
        exact ⟨l₁ ++ l₂, ih.mpr hp, append_cons_mem_insertEverywhere x l₁ l₂⟩

/-- Every combination-with-replacement has the selected length and draws
from the source list. -/
theorem mem_cwr {α : Type} :
    ∀ (k : Nat) (s l : List α), l ∈ cwr k s → l.length = k ∧ ∀ x ∈ l, x ∈ s := by
  intro k
  induction k with
  | zero =>
      intro s l h
      rw [cwr_zero, List.mem_singleton] at h
      subst h
      exact ⟨rfl, by intro x hx; cases hx⟩
  | succ k ih =>
      intro s
      induction s with
      | nil =>
          intro l h
          rw [cwr_succ_nil] at h
          cases h
      | cons x xs ihs =>
          intro l h
          rw [cwr_succ_cons, List.mem_append] at h
          rcases h with h | h
          · obtain ⟨c, hc, rfl⟩ := List.mem_map.mp h
            obtain ⟨hlen, hmem⟩ := ih (x :: xs) c hc
            refine ⟨by rw [List.length_cons, hlen], ?_⟩
            intro y hy
            rcases List.mem_cons.mp hy with rfl | hy
            · exact List.mem_cons_self _ _
            · exact hmem y hy
          · obtain ⟨hlen, hmem⟩ := ihs l h
            exact ⟨hlen, fun y hy => List.mem_cons_of_mem x (hmem y hy)⟩

/-- Every sorted selection from a strictly-sorted source list is one of its
combinations with replacement. -/
theorem sorted_mem_cwr :
    ∀ (s : List Answer), s.Pairwise ansLt →
    ∀ (l : List Answer), l.Sorted ansLe → (∀ x ∈ l, x ∈ s) →
    l ∈ cwr l.length s := by
  intro s
  induction s with
  | nil =>
      intro _ l _ hmem
      cases l with
      | nil =>
          rw [List.length_nil, cwr_zero]
          exact List.mem_singleton.mpr rfl
      | cons y ys => exact absurd (hmem y (List.mem_cons_self y ys)) (by simp)
  | cons x xs ihs =>
      intro hp l
      induction l with
      | nil =>
          intro _ _
          rw [List.length_nil, cwr_zero]
          exact List.mem_singleton.mpr rfl
      | cons y ys ihl =>
          intro hsorted hmem
          rw [List.length_cons, cwr_succ_cons, List.mem_append]
          by_cases hyx : y = x
          · left
            subst hyx
            exact List.mem_map.mpr
              ⟨ys, ihl (List.Sorted.of_cons hsorted)
                (fun z hz => hmem z (List.mem_cons_of_mem y hz)), rfl⟩
          · right
            have hxlt : ∀ z ∈ xs, ansLt x z := (List.pairwise_cons.mp hp).1
            have hyxs : y ∈ xs := by
              rcases List.mem_cons.mp (hmem y (List.mem_cons_self y ys)) with h | h
              · exact absurd h hyx
              · exact h
            have hall : ∀ z ∈ y :: ys, z ∈ xs := by
              intro z hz
              rcases List.mem_cons.mp hz with rfl | hz
              · exact hyxs
              · rcases List.mem_cons.mp (hmem z (List.mem_cons_of_mem y hz)) with rfl | h
                · have h1 : ansLe y z := (List.pairwise_cons.mp hsorted).1 z hz
                  have h2 : ansLt z y := hxlt y hyxs
                  exact absurd h1 (Nat.not_le.mpr h2)
                · exact h
            exact ihs (List.Pairwise.of_cons hp) (y :: ys) hsorted hall

/-- The replacement enumeration contains exactly the length-`k` sequences
over the four letters. -/
theorem mem_answersToTry {l : List Answer} {k : Nat} :
    l ∈ answersToTry k ↔ l.length = k ∧ ∀ x ∈ l, x ∈ letters := by
  unfold answersToTry
  rw [mem_sortDedup, List.mem_flatMap]
  constructor
  · rintro ⟨c, hc, hl⟩
    have hperm : l.Perm c := mem_perms.mp hl
    obtain ⟨hlen, hmem⟩ := mem_cwr k letters c hc
    exact ⟨hperm.length_eq.trans hlen, fun x hx => hmem x (hperm.subset hx)⟩
  · rintro ⟨hlen, hmem⟩
    have hperm := List.perm_insertionSort ansLe l
    have hsorted := List.sorted_insertionSort ansLe l
    refine ⟨l.insertionSort ansLe, ?_, mem_perms.mpr hperm.symm⟩
    have hlen2 : (l.insertionSort ansLe).length = k := hperm.length_eq.trans hlen
    rw [← hlen2]
    exact sorted_mem_cwr letters (by decide) (l.insertionSort ansLe) hsorted
      (fun x hx => hmem x (hperm.subset hx))

/-- Membership in the naive Cartesian power. -/
theorem mem_cartPow : ∀ {k : Nat} {l : List Answer},
    l ∈ cartPow k ↔ l.length = k ∧ ∀ x ∈ l, x ∈ letters := by
  intro k
  induction k with
  | zero =>
      intro l
      rw [show cartPow 0 = [[]] from rfl, List.mem_singleton]
      constructor
      · rintro rfl
        exact ⟨rfl, by intro x hx; cases hx⟩
      · rintro ⟨hlen, _⟩
        exact List.length_eq_zero.mp hlen
  | succ k ih =>
      intro l
      rw [show cartPow (k + 1) = (cartPow k).flatMap
        (fun t => letters.map (fun x => x :: t)) from rfl, List.mem_flatMap]
      constructor
      · rintro ⟨t, ht, hl⟩
        obtain ⟨x, hx, rfl⟩ := List.mem_map.mp hl
        obtain ⟨hlen, hmem⟩ := ih.mp ht
        refine ⟨by rw [List.length_cons, hlen], ?_⟩
        intro y hy
        rcases List.mem_cons.mp hy with rfl | hy
        · exact hx
        · exact hmem y hy
      · rintro ⟨hlen, hmem⟩
        cases l with
        | nil => cases hlen
        | cons x t =>
            refine ⟨t, ih.mpr ⟨by rw [List.length_cons] at hlen; omega,
              fun y hy => hmem y (List.mem_cons_of_mem x hy)⟩, ?_⟩
            exact List.mem_map.mpr ⟨x, hmem x (List.mem_cons_self x t), rfl⟩

/-- The naive Cartesian power has no duplicates. -/
theorem cartPow_nodup : ∀ k : Nat, (cartPow k).Nodup := by
  intro k
  induction k with
  | zero => exact List.nodup_singleton _
  | succ k ih =>
      rw [show cartPow (k + 1) = (cartPow k).flatMap
        (fun t => letters.map (fun x => x :: t)) from rfl]
      rw [List.nodup_flatMap]
      constructor
      · intro t _
        refine List.Nodup.map ?_ (by decide)
        intro a b hab
        injection hab
      · refine ih.imp ?_
        intro t₁ t₂ hne z hz₁ hz₂
        obtain ⟨x₁, _, rfl⟩ := List.mem_map.mp hz₁
        obtain ⟨x₂, _, heq⟩ := List.mem_map.mp hz₂
        injection heq with h1 h2
        exact hne (h2.symm ▸ rfl)

/-- The naive Cartesian power has `4 ^ k` elements. -/
theorem cartPow_length : ∀ k : Nat, (cartPow k).length = 4 ^ k := by
  intro k
  induction k with
  | zero => rfl
  | succ k ih =>
      rw [show cartPow (k + 1) = (cartPow k).flatMap
        (fun t => letters.map (fun x => x :: t)) from rfl]
      rw [List.length_flatMap]
      have h4 : ∀ b ∈ List.map (List.length ∘ fun t => letters.map (fun x => x :: t))
          (cartPow k), b = 4 := by
        intro b hb
        obtain ⟨t, _, rfl⟩ := List.mem_map.mp hb
        rfl
      rw [List.eq_replicate_of_mem h4, List.length_map, List.sum_replicate,
        smul_eq_mul, ih]
      ring

/-- C10: the replacement-sequence enumeration inside `generate_valid_set` —
combinations with replacement over `[A, B, C, D]` flat-mapped through their
permutations, sorted and deduplicated — yields exactly the set of all
`4 ^ k` length-`k` sequences over `{A, B, C, D}`, i.e. it equals the naive
Cartesian-power enumeration. -/
theorem answersToTry_eq_cartPow (k : Nat) (l : List Answer) :
    (l ∈ answersToTry k ↔ l ∈ cartPow k) ∧ (answersToTry k).length = 4 ^ k := by
  constructor
  · rw [mem_answersToTry, mem_cartPow]
  · have h1 : (answersToTry k).Nodup := by
      unfold answersToTry sortDedup
      exact List.nodup_dedup _
    have hperm : (answersToTry k).Perm (cartPow k) :=
      (List.perm_ext_iff_of_nodup h1 (cartPow_nodup k)).mpr
        (fun t => by rw [mem_answersToTry, mem_cartPow])
    rw [hperm.length_eq, cartPow_length]

/-! ### Claim C6: zero-score seeds -/

/-- Shifting every index by one and folding `set` over a cons leaves the
head untouched. -/
theorem foldl_set_shift :
    ∀ (ps : List (Nat × Answer)) (hd : Answer) (tl : List Answer),
    (ps.map (fun p => (p.1 + 1, p.2))).foldl (fun acc p => acc.set p.1 p.2) (hd :: tl)
      = hd :: ps.foldl (fun acc p => acc.set p.1 p.2) tl := by
  intro ps
  induction ps with
  | nil => intro hd tl; rfl
  | cons p ps ih =>
      intro hd tl
      rw [List.map_cons, List.foldl_cons, List.foldl_cons, List.set_cons_succ]
      exact ih hd (tl.set p.1 p.2)

/-- Overwriting every position of `base`, in order, with the values of a
same-length list gives back that list. -/
theorem overwrite_full :
    ∀ (base ans : List Answer), ans.length = base.length →
    overwrite base (List.range base.length) ans = ans := by
  intro base
  induction base with
  | nil =>
      intro ans h
      cases ans with
      | nil => rfl
      | cons x xs => cases h
  | cons b bs ih =>
      intro ans h
      cases ans with
      | nil => cases h
      | cons x xs =>
          unfold overwrite
          rw [List.length_cons, List.range_succ_eq_map, List.zip_cons_cons,
            List.foldl_cons, List.zip_map_left]
          rw [show (b :: bs).set 0 x = x :: bs from rfl]
          have hmap : List.map (Prod.map Nat.succ id) ((List.range bs.length).zip xs)
              = List.map (fun p => (p.1 + 1, p.2)) ((List.range bs.length).zip xs) := by
            apply List.map_congr_left
            intro p _
            cases p
            rfl
          rw [hmap, foldl_set_shift]
          have hx := ih xs (by rw [List.length_cons, List.length_cons] at h; omega)
          unfold overwrite at hx
          rw [hx]

/-- Asking for more elements than the list has yields no combinations. -/
theorem combinations_of_length_lt :
    ∀ (s : List α) (k : Nat), s.length < k → combinations k s = [] := by
  intro s
  induction s with
  | nil =>
      intro k h
      cases k with
      | zero => cases h
      | succ k => exact combinations_succ_nil k
  | cons x xs ih =>
      intro k h
      cases k with
      | zero => cases h
      | succ k =>
          rw [List.length_cons] at h
          rw [combinations_succ_cons, ih k (by omega), ih (k + 1) (by omega)]
          rfl

/-- The only full-length combination of a list is the list itself. -/
theorem combinations_self :
    ∀ s : List α, combinations s.length s = [s] := by
  intro s
  induction s with
  | nil => rfl
  | cons x xs ih =>
      rw [List.length_cons, combinations_succ_cons, ih,
        combinations_of_length_lt xs (xs.length + 1) (Nat.lt_succ_self _)]
      rfl

/-- C6 counterexample: for the zero-score seed "A", the generated set is
{A, B, C, D}, which contains the key "A" — a sequence that differs from the
seed in *no* position, contradicting the claimed "differs in every
position" enumeration. -/
theorem zero_score_output_contains_seed :
    ∃ s, QuizAttempt.generate_valid_set (QuizAttempt.mk [Answer.A] 0) = some s ∧
      AnswerKey.mk [Answer.A] ∈ s.keys :=
  ⟨AnswerKeySet.mk [AnswerKey.mk [Answer.A], AnswerKey.mk [Answer.B],
    AnswerKey.mk [Answer.C], AnswerKey.mk [Answer.D]], by decide, by decide⟩

/-- C6 (amended): for a zero-score seed of length `n`, `generate_valid_set`
enumerates exactly *all* `4 ^ n` length-`n` sequences over `{A, B, C, D}`
(not only those differing from the seed everywhere), and the candidate
count before the sentinel filter and dedup is `4 ^ n`. -/
theorem zero_score_enumerates_all_sequences (a : QuizAttempt)
    (h : a.score = 0) :
    (a.rawCandidates a.answers.length).length = 4 ^ a.answers.length ∧
    ∃ s, a.generate_valid_set = some s ∧
      ∀ key, key ∈ s.keys ↔
        (key.answers.length = a.answers.length ∧ ∀ x ∈ key.answers, x ∈ letters) := by
  have hraw : a.rawCandidates a.answers.length
      = (answersToTry a.answers.length).map
          (fun ans => AnswerKey.mk (overwrite a.answers (List.range a.answers.length) ans)) := by
    unfold QuizAttempt.rawCandidates
    have hc := combinations_self (List.range a.answers.length)
    rw [List.length_range] at hc
    rw [hc]
    rw [List.flatMap_cons, List.flatMap_nil, List.append_nil]
  have hmemraw : ∀ key : AnswerKey, key ∈ a.rawCandidates a.answers.length ↔
      (key.answers.length = a.answers.length ∧ ∀ x ∈ key.answers, x ∈ letters) := by
    intro key
    rw [hraw, List.mem_map]
    constructor
    · rintro ⟨ans, hans, rfl⟩
      obtain ⟨hlen, hmem⟩ := mem_answersToTry.mp hans
      rw [overwrite_full a.answers ans (by rw [hlen])]
      exact ⟨hlen, hmem⟩
    · rintro ⟨hlen, hmem⟩
      refine ⟨key.answers, mem_answersToTry.mpr ⟨hlen, hmem⟩, ?_⟩
      rw [overwrite_full a.answers key.answers (by rw [hlen])]
  constructor
  · rw [hraw, List.length_map, (answersToTry_eq_cartPow a.answers.length []).2]
  · have hm : (a.score % USIZE).toNat = 0 := by rw [h]; rfl
    unfold QuizAttempt.generate_valid_set
    rw [hm, if_neg (Nat.not_lt_zero _), Nat.sub_zero]
    refine ⟨_, rfl, ?_⟩
    intro key
    rw [mem_sortDedup, List.mem_filter, hmemraw key]
    constructor
    · rintro ⟨h1, _⟩
      exact h1
    · rintro ⟨h1, h2⟩
      refine ⟨⟨h1, h2⟩, ?_⟩
      have hX : Answer.X ∉ key.answers := by
        intro hx
        have := h2 Answer.X hx
        simp [letters] at this
      simp [hX]

/-- Witness for C6 at the zero-score seed "A". -/
theorem zero_score_enumerates_all_sequences_witness :
    ((QuizAttempt.mk [Answer.A] 0).rawCandidates 1).length = 4 ^ 1 ∧
    ∃ s, (QuizAttempt.mk [Answer.A] 0).generate_valid_set = some s ∧
      ∀ key, key ∈ s.keys ↔
        (key.answers.length = 1 ∧ ∀ x ∈ key.answers, x ∈ letters) :=
  zero_score_enumerates_all_sequences (QuizAttempt.mk [Answer.A] 0) rfl
